import Mathlib

/-!
Verification of the bookmark-manager record store (src/src/main.rs).

The program keeps a list of `Bookmark { name: String, offset: f64 }`
records serialized in a single backing file and offers three operations:
`add_bookmark` (add-or-update, then sort by offset and dedup by name),
`remove_bookmark` (delete the first record with a given name) and
`query_bookmark` (return the first record with a given name).

The embedding below models:
  * `f64` offsets as `F64` (`nan` or a rational value); `partial_cmp` on
    floats returns `none` exactly when a NaN is involved, and finite
    values (including infinities, which are order-isomorphic to large
    finite values) compare like rationals;
  * the backing file as `FileContents`: absent, unparseable raw bytes,
    or the serialization of a record list (serde_yaml serialization of a
    record list is deterministic and injective, so list equality models
    byte equality);
  * the fallible seek/truncate/write steps by a `Faults` oracle: each
    `?`-propagated step either succeeds or fails with an I/O error; a
    failing write is modelled as failing before emitting any byte, so it
    leaves the file truncated empty (a failure after a partial emit
    would leave a longer prefix instead).
-/

namespace BookmarkStore

/-- Model of an `f64` offset: `nan`, or a finite value modelled as a
rational.  (`±∞` and `-0.0` behave, for ordering purposes, like finite
values, so `ℚ` suffices for the comparisons the program performs.) -/
inductive F64 where
  | nan : F64
  | fin : ℚ → F64
deriving DecidableEq

/-- `f64::partial_cmp`: `None` exactly when a NaN is involved. -/
def F64.partialCmp : F64 → F64 → Option Ordering
  | F64.fin a, F64.fin b => some (compare a b)
  | _, _ => none

/-- The record type from `main.rs` (`struct Bookmark`). -/
structure Bookmark where
  name : String
  offset : F64
deriving DecidableEq

/-- The comparator of line 153:
`a.offset.partial_cmp(&b.offset).unwrap_or(Ordering::Equal)`. -/
def offsetCmp (a b : Bookmark) : Ordering :=
  (F64.partialCmp a.offset b.offset).getD Ordering.eq

/-- The closure of line 154: `|x, y| x.name == y.name`. -/
def sameName (x y : Bookmark) : Bool :=
  x.name == y.name

/-- One insertion step of core's insertion sort, acting on the already
processed prefix kept in reverse order: the new element shifts left past
each neighbour it compares `lt` to, and stops at the first neighbour it
does not. -/
def insertR {α : Type} (cmp : α → α → Ordering) (x : α) : List α → List α
  | [] => [x]
  | y :: ys => if cmp x y = Ordering.lt then y :: insertR cmp x ys else x :: y :: ys

/-- Model of `Vec::sort_unstable_by`.  `core::slice::sort` runs plain
insertion sort for slices of length at most 20, which this definition
reproduces exactly (the processed prefix is threaded in reverse order);
for longer slices the standard library switches to pattern-defeating
quicksort, whose placement of equal-comparing elements may differ. -/
def sortByCmp {α : Type} (cmp : α → α → Ordering) (l : List α) : List α :=
  (l.foldl (fun acc x => insertR cmp x acc) []).reverse

/-- Helper for `dedupBy`: `last` is the most recently retained element;
each next element is dropped when `same next last` holds, otherwise it
is retained and becomes the new `last`. -/
def dedupByKeep {α : Type} (same : α → α → Bool) (last : α) : List α → List α
  | [] => []
  | y :: ys => if same y last then dedupByKeep same last ys else y :: dedupByKeep same y ys

/-- Model of `Vec::dedup_by`: removes all but the first of *consecutive*
elements equated by `same` (each survivor is compared against the last
retained element). -/
def dedupBy {α : Type} (same : α → α → Bool) : List α → List α
  | [] => []
  | x :: xs => x :: dedupByKeep same x xs

/-- Lines 149-150: mutate the offset of the first record whose name
equals `n` (no-op when none matches). -/
def updateFirst : List Bookmark → String → F64 → List Bookmark
  | [], _, _ => []
  | b :: bs, n, o =>
      if b.name == n then { name := b.name, offset := o } :: bs
      else b :: updateFirst bs n o

/-- Lines 147-151: push a fresh record when no record has the name,
otherwise update the first matching record's offset in place. -/
def insertOrUpdate (l : List Bookmark) (n : String) (o : F64) : List Bookmark :=
  if (l.find? (fun x => x.name == n)).isNone then l ++ [{ name := n, offset := o }]
  else updateFirst l n o

/-- Lines 147-154: the in-memory collection `add_bookmark` constructs
before writing: insert-or-update, sort by offset with NaN ties treated
as equal, then dedup adjacent same-named records. -/
def addCore (l : List Bookmark) (n : String) (o : F64) : List Bookmark :=
  dedupBy sameName (sortByCmp offsetCmp (insertOrUpdate l n o))

/-- The backing file: missing, holding bytes that do not parse as a
record list, or holding the serialization of a record list. -/
inductive FileContents where
  | absent : FileContents
  | raw : String → FileContents
  | records : List Bookmark → FileContents
deriving DecidableEq

/-- Error kinds of the store (§7 taxonomy; YAML-encoding a plain record
list cannot fail logically, so write failures surface as I/O errors). -/
inductive StoreError where
  | ioError : StoreError
  | parseError : StoreError
deriving DecidableEq

/-- Outcome oracle for the three fallible steps `file.seek(..)?`,
`file.set_len(0)?` and `serde_yaml::to_writer(..)?`. -/
structure Faults where
  seekFail : Bool
  truncFail : Bool
  writeFail : Bool
deriving DecidableEq

/-- The run in which every I/O step succeeds. -/
def noFaults : Faults := { seekFail := false, truncFail := false, writeFail := false }

/-- Line 144: `add` opens with `.create(true)`, so an absent file
becomes an existing empty file (whose zero bytes do not parse). -/
def openedAdd : FileContents → FileContents
  | FileContents.absent => FileContents.raw ""
  | c => c

/-- Line 145: `serde_yaml::from_reader(&file).unwrap_or(Vec::new())`
— the collection `add` starts from: parsed records, or empty when the
file is absent (freshly created empty) or does not parse. -/
def loadedAdd : FileContents → List Bookmark
  | FileContents.records l => l
  | _ => []

/-- Lines 143-161, `add_bookmark`: build the new collection in memory,
then seek, truncate and rewrite the file; each fallible step either
succeeds or returns an I/O error per the `Faults` oracle.  A seek or
truncate failure leaves the opened contents; a write failure strikes
after `set_len(0)` and leaves the file truncated empty. -/
def add_bookmark (fs : Faults) (file : FileContents) (n : String) (o : F64) :
    FileContents × Except StoreError (Option Bookmark) :=
  let opened := openedAdd file
  let newList := addCore (loadedAdd file) n o
  if fs.seekFail then (opened, Except.error StoreError.ioError)
  else if fs.truncFail then (opened, Except.error StoreError.ioError)
  else if fs.writeFail then (FileContents.raw "", Except.error StoreError.ioError)
  else (FileContents.records newList, Except.ok none)

/-- Lines 163-177, `remove_bookmark`: open without `create` (I/O error
when absent), propagate parse failures, locate the first record with
the name; when found, erase it and rewrite (same fallible steps as
`add`), returning the removed record; when not found, touch nothing. -/
def remove_bookmark (fs : Faults) (file : FileContents) (n : String) :
    FileContents × Except StoreError (Option Bookmark) :=
  match file with
  | FileContents.absent => (FileContents.absent, Except.error StoreError.ioError)
  | FileContents.raw s => (FileContents.raw s, Except.error StoreError.parseError)
  | FileContents.records l =>
    match l.findIdx? (fun x => x.name == n) with
    | none => (FileContents.records l, Except.ok none)
    | some i =>
      if fs.seekFail then (FileContents.records l, Except.error StoreError.ioError)
      else if fs.truncFail then (FileContents.records l, Except.error StoreError.ioError)
      else if fs.writeFail then (FileContents.raw "", Except.error StoreError.ioError)
      else (FileContents.records (l.eraseIdx i), Except.ok (l.get? i))

/-- Lines 179-186, `query_bookmark`: open without `create`, propagate
parse failures, and return the first record with the name
(`drain(..).filter(..).next()`); the file is never written. -/
def query_bookmark (file : FileContents) (n : String) :
    FileContents × Except StoreError (Option Bookmark) :=
  match file with
  | FileContents.absent => (FileContents.absent, Except.error StoreError.ioError)
  | FileContents.raw s => (FileContents.raw s, Except.error StoreError.parseError)
  | FileContents.records l => (FileContents.records l, Except.ok (l.find? (fun x => x.name == n)))

/-! ### Basic facts about the comparator -/

/-- `compare` on `ℚ` is antisymmetric. -/
theorem compare_rat_swap (a b : ℚ) : compare a b = (compare b a).swap := by
  rcases lt_trichotomy a b with h | h | h
  · rw [compare_lt_iff_lt.mpr h, compare_gt_iff_gt.mpr h]; rfl
  · rw [compare_eq_iff_eq.mpr h, compare_eq_iff_eq.mpr h.symm]; rfl
  · rw [compare_gt_iff_gt.mpr h, compare_lt_iff_lt.mpr h]; rfl

/-- `swap` sends exactly `lt` to `gt`. -/
theorem swap_eq_gt_iff (o : Ordering) : o.swap = Ordering.gt ↔ o = Ordering.lt := by
  cases o <;> decide

/-- `swap` sends exactly `gt` to `lt`. -/
theorem swap_eq_lt_iff (o : Ordering) : o.swap = Ordering.lt ↔ o = Ordering.gt := by
  cases o <;> decide

/-- The offset comparator is antisymmetric (NaN comparisons yield
`eq` on both sides). -/
theorem offsetCmp_symm (a b : Bookmark) : offsetCmp a b = (offsetCmp b a).swap := by
  unfold offsetCmp F64.partialCmp
  cases a.offset with
  | nan => cases b.offset <;> rfl
  | fin qa =>
    cases b.offset with
    | nan => rfl
    | fin qb =>
      simp only [Option.getD_some]
      exact compare_rat_swap qa qb

/-- Among NaN-free records, non-`lt` comparison is transitive (the
middle record must be NaN-free for this to hold). -/
theorem offsetCmp_trans_nlt (a b c : Bookmark) (hb : b.offset ≠ F64.nan)
    (h₁ : offsetCmp a b ≠ Ordering.lt) (h₂ : offsetCmp b c ≠ Ordering.lt) :
    offsetCmp a c ≠ Ordering.lt := by
  unfold offsetCmp F64.partialCmp at *
  cases ha : a.offset with
  | nan => simp
  | fin qa =>
    cases hc : c.offset with
    | nan => simp
    | fin qc =>
      cases hbv : b.offset with
      | nan => exact absurd hbv hb
      | fin qb =>
        rw [ha, hbv] at h₁
        rw [hbv, hc] at h₂
        simp only [Option.getD_some] at h₁ h₂ ⊢
        rw [compare_ge_iff_ge] at h₁ h₂ ⊢
        exact le_trans h₂ h₁

/-! ### The sort model: permutation, sortedness, stability under
re-sorting -/

/-- `insertR` permutes: it just inserts `x` somewhere in the list. -/
theorem insertR_perm {α : Type} (cmp : α → α → Ordering) (x : α) (l : List α) :
    List.Perm (insertR cmp x l) (x :: l) := by
  induction l with
  | nil => exact List.Perm.refl _
  | cons y ys ih =>
    simp only [insertR]
    split
    · exact (ih.cons y).trans (List.Perm.swap x y ys)
    · exact List.Perm.refl _

/-- The fold of insertion steps permutes the input onto the accumulator. -/
theorem foldl_insertR_perm {α : Type} (cmp : α → α → Ordering) (l : List α) :
    ∀ acc : List α, List.Perm (l.foldl (fun a x => insertR cmp x a) acc) (l ++ acc) := by
  induction l with
  | nil => intro acc; simp
  | cons x xs ih =>
    intro acc
    simp only [List.foldl_cons, List.cons_append]
    exact ((ih _).trans (List.Perm.append_left xs (insertR_perm cmp x acc))).trans
      List.perm_middle

/-- The sort is a permutation of its input. -/
theorem sortByCmp_perm {α : Type} (cmp : α → α → Ordering) (l : List α) :
    List.Perm (sortByCmp cmp l) l := by
  unfold sortByCmp
  exact (List.reverse_perm _).trans ((foldl_insertR_perm cmp l []).trans (by simp))

/-- The head of an insertion result is the inserted element or the old
head. -/
theorem insertR_head {α : Type} (cmp : α → α → Ordering) (x : α) (l : List α) :
    (insertR cmp x l).head? = some x ∨ (insertR cmp x l).head? = l.head? := by
  cases l with
  | nil => left; rfl
  | cons y ys =>
    simp only [insertR]
    split
    · right; rfl
    · left; rfl

/-- Inserting preserves the (reversed-order) adjacent non-`lt` chain,
for any antisymmetric comparator. -/
theorem insertR_chain' {α : Type} (cmp : α → α → Ordering)
    (hsym : ∀ a b, cmp a b = (cmp b a).swap) (x : α) (l : List α)
    (h : List.Chain' (fun a b => cmp a b ≠ Ordering.lt) l) :
    List.Chain' (fun a b => cmp a b ≠ Ordering.lt) (insertR cmp x l) := by
  induction l with
  | nil => simp [insertR]
  | cons y ys ih =>
    rw [List.chain'_cons'] at h
    obtain ⟨hy, hys⟩ := h
    simp only [insertR]
    split
    · next hlt =>
      rw [List.chain'_cons']
      refine ⟨?_, ih hys⟩
      intro z hz
      rcases insertR_head cmp x ys with hh | hh
      · rw [hh] at hz
        simp only [Option.mem_def, Option.some.injEq] at hz
        subst hz
        rw [hsym y x, hlt]
        decide
      · rw [hh] at hz
        exact hy z hz
    · next hnlt =>
      rw [List.chain'_cons']
      refine ⟨?_, by rw [List.chain'_cons']; exact ⟨hy, hys⟩⟩
      intro z hz
      simp only [List.head?_cons, Option.mem_def, Option.some.injEq] at hz
      subst hz
      exact hnlt

/-- The fold preserves the reversed-order chain. -/
theorem foldl_insertR_chain' {α : Type} (cmp : α → α → Ordering)
    (hsym : ∀ a b, cmp a b = (cmp b a).swap) (l : List α) :
    ∀ acc : List α, List.Chain' (fun a b => cmp a b ≠ Ordering.lt) acc →
      List.Chain' (fun a b => cmp a b ≠ Ordering.lt)
        (l.foldl (fun a x => insertR cmp x a) acc) := by
  induction l with
  | nil => intro acc h; exact h
  | cons x xs ih =>
    intro acc h
    simp only [List.foldl_cons]
    exact ih _ (insertR_chain' cmp hsym x acc h)

/-- The sorted output has no adjacent descending pair (under the
comparator, which ranks NaN ties as equal): the sort result is sorted. -/
theorem sortByCmp_chain' {α : Type} (cmp : α → α → Ordering)
    (hsym : ∀ a b, cmp a b = (cmp b a).swap) (l : List α) :
    List.Chain' (fun a b => cmp a b ≠ Ordering.gt) (sortByCmp cmp l) := by
  unfold sortByCmp
  rw [List.chain'_reverse]
  refine List.Chain'.imp ?_ (foldl_insertR_chain' cmp hsym l [] (by simp))
  intro a b hab hgt
  apply hab
  rw [hsym b a, swap_eq_gt_iff] at hgt
  exact hgt

/-- Inserting an element that is not `lt` its left neighbour is a plain
cons. -/
theorem insertR_of_not_lt {α : Type} (cmp : α → α → Ordering) (x y : α) (ys : List α)
    (h : cmp x y ≠ Ordering.lt) : insertR cmp x (y :: ys) = x :: y :: ys := by
  simp [insertR, h]

/-- Folding insertion steps over an already sorted input (relative to
the reversed accumulator) just reverses it onto the accumulator. -/
theorem foldl_insertR_of_sorted {α : Type} (cmp : α → α → Ordering)
    (hsym : ∀ a b, cmp a b = (cmp b a).swap) :
    ∀ (l acc : List α),
      List.Chain' (fun a b => cmp a b ≠ Ordering.gt) (acc.reverse ++ l) →
      l.foldl (fun a x => insertR cmp x a) acc = l.reverse ++ acc := by
  intro l
  induction l with
  | nil => intro acc _; simp
  | cons x xs ih =>
    intro acc h
    have hstep : insertR cmp x acc = x :: acc := by
      cases acc with
      | nil => rfl
      | cons y ys =>
        refine insertR_of_not_lt cmp x y ys ?_
        have hj := (List.chain'_append.mp h).2.2
        have hyx : cmp y x ≠ Ordering.gt := by
          refine hj y ?_ x ?_
          · rw [List.getLast?_reverse]; rfl
          · rfl
        intro hlt
        apply hyx
        rw [hsym y x, hlt]
        rfl
    rw [List.foldl_cons, hstep]
    rw [ih (x :: acc) (by simpa using h)]
    simp

/-- Sorting a list that is already sorted (adjacent non-descending)
returns it unchanged.  In particular re-sorting a sort result is the
identity, even with NaN offsets present. -/
theorem sortByCmp_of_chain' {α : Type} (cmp : α → α → Ordering)
    (hsym : ∀ a b, cmp a b = (cmp b a).swap) (l : List α)
    (h : List.Chain' (fun a b => cmp a b ≠ Ordering.gt) l) : sortByCmp cmp l = l := by
  unfold sortByCmp
  rw [foldl_insertR_of_sorted cmp hsym l [] (by simpa using h)]
  simp

/-! ### Global sortedness when no NaN offset is involved -/

/-- Inserting a NaN-free record into a NaN-free pairwise non-`lt`
(reversed-order) list preserves pairwise non-`lt`. -/
theorem insertR_pairwise (x : Bookmark) (l : List Bookmark)
    (hl : ∀ a ∈ l, a.offset ≠ F64.nan)
    (h : List.Pairwise (fun a b => offsetCmp a b ≠ Ordering.lt) l) :
    List.Pairwise (fun a b => offsetCmp a b ≠ Ordering.lt) (insertR offsetCmp x l) := by
  induction l with
  | nil => simp [insertR]
  | cons y ys ih =>
    rw [List.pairwise_cons] at h
    obtain ⟨hy, hys⟩ := h
    have hyfin : y.offset ≠ F64.nan := hl y (List.mem_cons_self y ys)
    have hysfin : ∀ a ∈ ys, a.offset ≠ F64.nan :=
      fun a ha => hl a (List.mem_cons_of_mem y ha)
    simp only [insertR]
    split
    · next hlt =>
      rw [List.pairwise_cons]
      refine ⟨?_, ih hysfin hys⟩
      intro z hz
      have hz' : z = x ∨ z ∈ ys := by
        have := (insertR_perm offsetCmp x ys).mem_iff.mp hz
        simpa using this
      rcases hz' with rfl | hz'
      · rw [offsetCmp_symm y z, hlt]
        decide
      · exact hy z hz'
    · next hnlt =>
      rw [List.pairwise_cons]
      refine ⟨?_, by rw [List.pairwise_cons]; exact ⟨hy, hys⟩⟩
      intro z hz
      rcases List.mem_cons.mp hz with rfl | hz'
      · exact hnlt
      · exact offsetCmp_trans_nlt x y z hyfin hnlt (hy z hz')

/-- The fold of insertions preserves pairwise non-`lt` on NaN-free
collections. -/
theorem foldl_insertR_pairwise :
    ∀ (l acc : List Bookmark),
      (∀ a ∈ l, a.offset ≠ F64.nan) → (∀ a ∈ acc, a.offset ≠ F64.nan) →
      List.Pairwise (fun a b => offsetCmp a b ≠ Ordering.lt) acc →
      List.Pairwise (fun a b => offsetCmp a b ≠ Ordering.lt)
        (l.foldl (fun a x => insertR offsetCmp x a) acc) := by
  intro l
  induction l with
  | nil => intro acc _ _ h; exact h
  | cons x xs ih =>
    intro acc hl hacc h
    simp only [List.foldl_cons]
    have hxs : ∀ a ∈ xs, a.offset ≠ F64.nan := fun a ha => hl a (List.mem_cons_of_mem x ha)
    have hins : ∀ a ∈ insertR offsetCmp x acc, a.offset ≠ F64.nan := by
      intro a ha
      have := (insertR_perm offsetCmp x acc).mem_iff.mp ha
      rcases List.mem_cons.mp this with rfl | h'
      · exact hl a (List.mem_cons_self a xs)
      · exact hacc a h'
    exact ih _ hxs hins (insertR_pairwise x acc hacc h)

/-- On a NaN-free collection, the sort output is globally sorted:
every record is `≤` every later record. -/
theorem sortByCmp_pairwise (l : List Bookmark) (hl : ∀ a ∈ l, a.offset ≠ F64.nan) :
    List.Pairwise (fun a b => offsetCmp a b ≠ Ordering.gt) (sortByCmp offsetCmp l) := by
  unfold sortByCmp
  rw [List.pairwise_reverse]
  refine List.Pairwise.imp ?_ (foldl_insertR_pairwise l [] hl (by simp) (by simp))
  intro a b hab hgt
  apply hab
  rw [offsetCmp_symm b a, swap_eq_gt_iff] at hgt
  exact hgt

/-! ### Dedup facts -/

/-- The dedup helper yields a sublist. -/
theorem dedupByKeep_sublist {α : Type} (same : α → α → Bool) :
    ∀ (l : List α) (last : α), List.Sublist (dedupByKeep same last l) l := by
  intro l
  induction l with
  | nil => intro last; exact List.Sublist.refl []
  | cons y ys ih =>
    intro last
    simp only [dedupByKeep]
    split
    · exact (ih last).cons y
    · exact (ih y).cons₂ y

/-- `dedupBy` yields a sublist of its input. -/
theorem dedupBy_sublist {α : Type} (same : α → α → Bool) (l : List α) :
    List.Sublist (dedupBy same l) l := by
  cases l with
  | nil => exact List.Sublist.refl []
  | cons x xs => exact (dedupByKeep_sublist same xs x).cons₂ x

/-- No two adjacent survivors of the dedup helper share a name, nor
does the first survivor share the retained `last`'s name. -/
theorem dedupByKeep_names_chain' :
    ∀ (l : List Bookmark) (last : Bookmark),
      List.Chain' (fun a b => a.name ≠ b.name) (last :: dedupByKeep sameName last l) := by
  intro l
  induction l with
  | nil => intro last; simp [dedupByKeep]
  | cons y ys ih =>
    intro last
    simp only [dedupByKeep]
    split
    · exact ih last
    · next hne =>
      rw [List.chain'_cons]
      refine ⟨?_, ih y⟩
      intro h
      apply hne
      simp [sameName, h]

/-- After `dedupBy sameName`, no two *adjacent* records share a name. -/
theorem dedupBy_names_chain' (l : List Bookmark) :
    List.Chain' (fun a b => a.name ≠ b.name) (dedupBy sameName l) := by
  cases l with
  | nil => simp [dedupBy]
  | cons x xs =>
    simp only [dedupBy]
    exact dedupByKeep_names_chain' xs x

/-- The dedup helper is the identity when no element matches the
retained name and the names are pairwise distinct. -/
theorem dedupByKeep_of_nodup :
    ∀ (l : List Bookmark) (last : Bookmark),
      (∀ y ∈ l, y.name ≠ last.name) → (l.map Bookmark.name).Nodup →
      dedupByKeep sameName last l = l := by
  intro l
  induction l with
  | nil => intro last _ _; rfl
  | cons y ys ih =>
    intro last h hnd
    have hne : sameName y last = false := by
      have := h y (List.mem_cons_self y ys)
      simp [sameName, this]
    simp only [dedupByKeep, hne, Bool.false_eq_true, if_false]
    rw [List.map_cons, List.nodup_cons] at hnd
    refine congrArg (y :: ·) (ih y ?_ hnd.2)
    intro z hz hzy
    exact hnd.1 (hzy ▸ List.mem_map_of_mem Bookmark.name hz)

/-- `dedupBy sameName` is the identity on collections with pairwise
distinct names. -/
theorem dedupBy_of_nodup_names (l : List Bookmark) (h : (l.map Bookmark.name).Nodup) :
    dedupBy sameName l = l := by
  cases l with
  | nil => rfl
  | cons x xs =>
    rw [List.map_cons, List.nodup_cons] at h
    simp only [dedupBy]
    refine congrArg (x :: ·) (dedupByKeep_of_nodup xs x ?_ h.2)
    intro z hz hzx
    exact h.1 (hzx ▸ List.mem_map_of_mem Bookmark.name hz)

/-! ### Insert-or-update facts -/

/-- Updating an offset does not change the name sequence. -/
theorem updateFirst_map_name :
    ∀ (l : List Bookmark) (n : String) (o : F64),
      (updateFirst l n o).map Bookmark.name = l.map Bookmark.name := by
  intro l n o
  induction l with
  | nil => rfl
  | cons b bs ih =>
    simp only [updateFirst]
    split
    · rfl
    · simp only [List.map_cons, ih]

/-- When `find?` misses, every record's name differs from the probe. -/
theorem find?_none_names {l : List Bookmark} {n : String}
    (h : l.find? (fun x => x.name == n) = none) : ∀ a ∈ l, a.name ≠ n := by
  intro a ha hn
  have := List.find?_eq_none.mp h a ha
  simp [hn] at this

/-- Names remain pairwise distinct after insert-or-update. -/
theorem insertOrUpdate_names_nodup (l : List Bookmark) (n : String) (o : F64)
    (h : (l.map Bookmark.name).Nodup) :
    ((insertOrUpdate l n o).map Bookmark.name).Nodup := by
  unfold insertOrUpdate
  split
  · next hf =>
    rw [Option.isNone_iff_eq_none] at hf
    have hnames := find?_none_names hf
    rw [List.map_append]
    simp only [List.map_cons, List.map_nil]
    rw [List.nodup_append]
    refine ⟨h, List.nodup_singleton n, ?_⟩
    intro a ha hmem
    have han : a = n := List.mem_singleton.mp hmem
    rcases List.mem_map.mp ha with ⟨c, hc, hcn⟩
    exact hnames c hc (hcn.trans han)
  · rw [updateFirst_map_name]
    exact h

/-- Insert-or-update keeps offsets NaN-free when the new offset is. -/
theorem updateFirst_offsets (l : List Bookmark) (n : String) (o : F64)
    (hl : ∀ a ∈ l, a.offset ≠ F64.nan) (ho : o ≠ F64.nan) :
    ∀ a ∈ updateFirst l n o, a.offset ≠ F64.nan := by
  induction l with
  | nil => intro a ha; cases ha
  | cons b bs ih =>
    simp only [updateFirst]
    have hb := hl b (List.mem_cons_self b bs)
    have hbs : ∀ a ∈ bs, a.offset ≠ F64.nan := fun a ha => hl a (List.mem_cons_of_mem b ha)
    split
    · intro a ha
      rcases List.mem_cons.mp ha with rfl | ha'
      · exact ho
      · exact hbs a ha'
    · intro a ha
      rcases List.mem_cons.mp ha with rfl | ha'
      · exact hb
      · exact ih hbs a ha'

/-- All offsets of the insert-or-update result are NaN-free when the
starting offsets and the new offset are. -/
theorem insertOrUpdate_offsets (l : List Bookmark) (n : String) (o : F64)
    (hl : ∀ a ∈ l, a.offset ≠ F64.nan) (ho : o ≠ F64.nan) :
    ∀ a ∈ insertOrUpdate l n o, a.offset ≠ F64.nan := by
  unfold insertOrUpdate
  split
  · intro a ha
    rcases List.mem_append.mp ha with ha' | ha'
    · exact hl a ha'
    · rcases List.mem_singleton.mp ha' with rfl
      exact ho
  · exact updateFirst_offsets l n o hl ho

/-- With pairwise-distinct names, any record of the update result that
carries the probed name is exactly the updated record. -/
theorem updateFirst_named (l : List Bookmark) (n : String) (o : F64)
    (h : (l.map Bookmark.name).Nodup) :
    ∀ b ∈ updateFirst l n o, b.name = n → b = { name := n, offset := o } := by
  induction l with
  | nil => intro b hb; cases hb
  | cons c cs ih =>
    rw [List.map_cons, List.nodup_cons] at h
    simp only [updateFirst]
    split
    · next hc =>
      have hcn : c.name = n := by simpa using hc
      intro b hb hbn
      rcases List.mem_cons.mp hb with rfl | hb'
      · simp [hcn]
      · exact absurd (by rw [hcn, ← hbn]; exact List.mem_map_of_mem Bookmark.name hb') h.1
    · next hc =>
      intro b hb hbn
      rcases List.mem_cons.mp hb with rfl | hb'
      · exact absurd (by simp [hbn]) hc
      · exact ih h.2 b hb' hbn

/-- With pairwise-distinct names, any record of the insert-or-update
result named `n` is exactly `{n, o}`. -/
theorem insertOrUpdate_named (l : List Bookmark) (n : String) (o : F64)
    (h : (l.map Bookmark.name).Nodup) :
    ∀ b ∈ insertOrUpdate l n o, b.name = n → b = { name := n, offset := o } := by
  unfold insertOrUpdate
  split
  · next hf =>
    rw [Option.isNone_iff_eq_none] at hf
    intro b hb hbn
    rcases List.mem_append.mp hb with hb' | hb'
    · exact absurd hbn (find?_none_names hf b hb')
    · exact List.mem_singleton.mp hb'
  · exact updateFirst_named l n o h

/-- When some record carries the probed name, the updated record is a
member of the update result. -/
theorem updateFirst_mem (l : List Bookmark) (n : String) (o : F64)
    (h : ∃ b ∈ l, b.name = n) :
    ({ name := n, offset := o } : Bookmark) ∈ updateFirst l n o := by
  induction l with
  | nil => obtain ⟨b, hb, _⟩ := h; cases hb
  | cons c cs ih =>
    simp only [updateFirst]
    split
    · next hc =>
      have hcn : c.name = n := by simpa using hc
      rw [hcn]
      exact List.mem_cons_self _ _
    · next hc =>
      obtain ⟨b, hb, hbn⟩ := h
      rcases List.mem_cons.mp hb with rfl | hb'
      · exact absurd (by simp [hbn]) hc
      · exact List.mem_cons_of_mem c (ih ⟨b, hb', hbn⟩)

/-- The freshly written record `{n, o}` is always a member of the
insert-or-update result. -/
theorem insertOrUpdate_mem (l : List Bookmark) (n : String) (o : F64) :
    ({ name := n, offset := o } : Bookmark) ∈ insertOrUpdate l n o := by
  unfold insertOrUpdate
  split
  · exact List.mem_append_right l (List.mem_singleton_self _)
  · next hf =>
    rcases hfv : l.find? (fun x => x.name == n) with _ | b
    · rw [hfv] at hf; exact absurd rfl hf
    · have hb := List.find?_some hfv
      have hbl := List.mem_of_find?_eq_some hfv
      exact updateFirst_mem l n o ⟨b, hbl, by simpa using hb⟩

/-- Updating the first record named `n` to an offset it already has is
a no-op. -/
theorem updateFirst_eq_self (l : List Bookmark) (n : String) (o : F64)
    (h : ∀ b ∈ l, b.name = n → b.offset = o) : updateFirst l n o = l := by
  induction l with
  | nil => rfl
  | cons c cs ih =>
    simp only [updateFirst]
    split
    · next hc =>
      have hcn : c.name = n := by simpa using hc
      have hco := h c (List.mem_cons_self c cs) hcn
      cases c
      simp_all
    · next hc =>
      refine congrArg (c :: ·) (ih ?_)
      intro b hb hbn
      exact h b (List.mem_cons_of_mem c hb) hbn

/-! ### Remove-path facts -/

/-- `position` on a list split around its first match returns the index
of that match (stated for every start index of the fold). -/
theorem findIdx?_go_split (l₂ : List Bookmark) (b : Bookmark) (n : String)
    (hb : b.name = n) :
    ∀ (l₁ : List Bookmark) (i : Nat), (∀ a ∈ l₁, a.name ≠ n) →
      List.findIdx? (fun x => x.name == n) (l₁ ++ b :: l₂) i = some (i + l₁.length) := by
  intro l₁
  induction l₁ with
  | nil =>
    intro i _
    simp only [List.nil_append, List.findIdx?_cons, List.length_nil, Nat.add_zero]
    simp [hb]
  | cons a l₁ ih =>
    intro i h₁
    have han : (a.name == n) = false := by
      have := h₁ a (List.mem_cons_self a l₁)
      simp [this]
    simp only [List.cons_append, List.findIdx?_cons, han, List.length_cons,
      Bool.false_eq_true, if_false]
    rw [ih (i + 1) (fun c hc => h₁ c (List.mem_cons_of_mem a hc))]
    congr 1
    omega

/-- `position` on a list split around its first match returns the index
of that match. -/
theorem findIdx?_split (l₁ l₂ : List Bookmark) (b : Bookmark) (n : String)
    (h₁ : ∀ a ∈ l₁, a.name ≠ n) (hb : b.name = n) :
    (l₁ ++ b :: l₂).findIdx? (fun x => x.name == n) = some l₁.length := by
  simpa using findIdx?_go_split l₂ b n hb l₁ 0 h₁

/-- `Vec::remove` at the split index removes exactly the matched
record, keeping everything else in order. -/
theorem eraseIdx_split (l₁ l₂ : List Bookmark) (b : Bookmark) :
    (l₁ ++ b :: l₂).eraseIdx l₁.length = l₁ ++ l₂ := by
  induction l₁ with
  | nil => rfl
  | cons a l₁ ih =>
    simp only [List.cons_append, List.length_cons, List.eraseIdx_cons_succ]
    rw [ih]

/-- The record at the split index is the matched record. -/
theorem get?_split (l₁ l₂ : List Bookmark) (b : Bookmark) :
    (l₁ ++ b :: l₂).get? l₁.length = some b := by
  induction l₁ with
  | nil => rfl
  | cons a l₁ ih =>
    simpa using ih

/-- `remove_bookmark` on a store split around the first record named
`n`: it deletes exactly that record, rewrites the remainder and returns
the record. -/
theorem remove_bookmark_split (l₁ l₂ : List Bookmark) (b : Bookmark) (n : String)
    (h₁ : ∀ a ∈ l₁, a.name ≠ n) (hb : b.name = n) :
    remove_bookmark noFaults (FileContents.records (l₁ ++ b :: l₂)) n
      = (FileContents.records (l₁ ++ l₂), Except.ok (some b)) := by
  simp only [remove_bookmark, findIdx?_split l₁ l₂ b n h₁ hb, noFaults,
    Bool.false_eq_true, if_false]
  rw [eraseIdx_split, get?_split]

/-- When no record matches, `position` returns `none` (stated for
every start index of the fold). -/
theorem findIdx?_go_none (n : String) :
    ∀ (l : List Bookmark) (i : Nat), (∀ a ∈ l, a.name ≠ n) →
      List.findIdx? (fun x => x.name == n) l i = none := by
  intro l
  induction l with
  | nil => intro i _; rfl
  | cons a l ih =>
    intro i h
    have han : (a.name == n) = false := by
      have := h a (List.mem_cons_self a l)
      simp [this]
    simp only [List.findIdx?_cons, han, Bool.false_eq_true, if_false]
    exact ih (i + 1) (fun c hc => h c (List.mem_cons_of_mem a hc))

/-- When no record matches, `position` returns `none`. -/
theorem findIdx?_none (l : List Bookmark) (n : String)
    (h : ∀ a ∈ l, a.name ≠ n) : l.findIdx? (fun x => x.name == n) = none :=
  findIdx?_go_none n l 0 h

deriving instance DecidableEq for Except

/-! ### Claim C1 -/

/-- C1 counterexample: starting from a (corrupted) store holding two
records named "a" at offsets 1 and 3, a successful `add("c", 5)` writes
back a collection that still holds both "a" records: `Vec::dedup_by`
removes only adjacent duplicates, and the two "a" records are not
adjacent in sorted order. -/
theorem add_nonadjacent_duplicates_survive :
    (add_bookmark noFaults
        (FileContents.records [⟨"a", F64.fin 1⟩, ⟨"b", F64.fin 2⟩, ⟨"a", F64.fin 3⟩])
        "c" (F64.fin 5)).1
      = FileContents.records
          [⟨"a", F64.fin 1⟩, ⟨"b", F64.fin 2⟩, ⟨"a", F64.fin 3⟩, ⟨"c", F64.fin 5⟩] ∧
    ¬ (([⟨"a", F64.fin 1⟩, ⟨"b", F64.fin 2⟩, ⟨"a", F64.fin 3⟩, ⟨"c", F64.fin 5⟩] :
          List Bookmark).map Bookmark.name).Nodup :=
  ⟨rfl, by decide⟩

/-- C1 (amended): after a successful `add` no two *adjacent* records of
the written collection share a name; and when the loaded collection has
pairwise-distinct names, the whole written collection has
pairwise-distinct names. -/
theorem add_preserves_unique_names (file : FileContents) (n : String) (o : F64) :
    List.Chain' (fun a b => a.name ≠ b.name) (addCore (loadedAdd file) n o) ∧
    (((loadedAdd file).map Bookmark.name).Nodup →
      (add_bookmark noFaults file n o).1 = FileContents.records (addCore (loadedAdd file) n o) ∧
      ((addCore (loadedAdd file) n o).map Bookmark.name).Nodup) := by
  constructor
  · exact dedupBy_names_chain' _
  · intro h
    refine ⟨rfl, ?_⟩
    have h1 := insertOrUpdate_names_nodup (loadedAdd file) n o h
    have h2 : ((sortByCmp offsetCmp (insertOrUpdate (loadedAdd file) n o)).map
        Bookmark.name).Nodup :=
      (((sortByCmp_perm offsetCmp _).map Bookmark.name).nodup_iff).mpr h1
    exact List.Nodup.sublist ((dedupBy_sublist sameName _).map Bookmark.name) h2

/-- C1 witness: the amended claim at a concrete well-formed store. -/
theorem add_preserves_unique_names_witness :
    List.Chain' (fun a b => a.name ≠ b.name) (addCore [⟨"a", F64.fin 1⟩] "b" (F64.fin 2)) ∧
    ((addCore [⟨"a", F64.fin 1⟩] "b" (F64.fin 2)).map Bookmark.name).Nodup := by
  have h := add_preserves_unique_names (FileContents.records [⟨"a", F64.fin 1⟩]) "b" (F64.fin 2)
  exact ⟨h.1, (h.2 (by decide)).2⟩

/-! ### Claim C3 -/

/-- C3: `add` on an unparseable file proceeds from the empty collection
(and can never raise a parse error), while `remove` and `query` fail
with a parse error on the same contents, and with an I/O error when the
file is absent. -/
theorem add_tolerant_remove_query_strict (fs : Faults) (s n : String) (o : F64) :
    add_bookmark noFaults (FileContents.raw s) n o
        = (FileContents.records [{ name := n, offset := o }], Except.ok none) ∧
    (add_bookmark fs (FileContents.raw s) n o).2 ≠ Except.error StoreError.parseError ∧
    remove_bookmark fs (FileContents.raw s) n
        = (FileContents.raw s, Except.error StoreError.parseError) ∧
    query_bookmark (FileContents.raw s) n
        = (FileContents.raw s, Except.error StoreError.parseError) ∧
    remove_bookmark fs FileContents.absent n
        = (FileContents.absent, Except.error StoreError.ioError) ∧
    query_bookmark FileContents.absent n
        = (FileContents.absent, Except.error StoreError.ioError) := by
  obtain ⟨sf, tf, wf⟩ := fs
  refine ⟨rfl, ?_, rfl, rfl, rfl, rfl⟩
  cases sf <;> cases tf <;> cases wf <;> simp [add_bookmark]

/-! ### Claim C4 -/

/-- C4 counterexample: with the collection already fully constructed,
`set_len(0)` succeeds and the subsequent write fails, so the failing
`add` leaves an empty file — neither the old contents nor the complete
new contents. -/
theorem add_write_failure_leaves_truncated_file :
    add_bookmark { seekFail := false, truncFail := false, writeFail := true }
        (FileContents.records [⟨"a", F64.fin 1⟩]) "b" (F64.fin 2)
      = (FileContents.raw "", Except.error StoreError.ioError) ∧
    addCore [⟨"a", F64.fin 1⟩] "b" (F64.fin 2) = [⟨"a", F64.fin 1⟩, ⟨"b", F64.fin 2⟩] ∧
    FileContents.raw "" ≠ FileContents.records [⟨"a", F64.fin 1⟩] ∧
    FileContents.raw "" ≠ FileContents.records [⟨"a", F64.fin 1⟩, ⟨"b", F64.fin 2⟩] :=
  ⟨rfl, rfl, by decide, by decide⟩

/-- C4 (amended): the new collection is fully constructed before any
file mutation, so every failure other than one of the final write step
leaves the file unchanged (for `add`, unchanged after the open, which
creates an absent file empty); only a failing write after truncation
can leave partial contents. -/
theorem prewrite_errors_leave_file_unchanged (fs : Faults) (file : FileContents)
    (n : String) (o : F64) (hw : fs.writeFail = false) :
    (∀ e, (add_bookmark fs file n o).2 = Except.error e →
        (add_bookmark fs file n o).1 = openedAdd file) ∧
    (∀ e, (remove_bookmark fs file n).2 = Except.error e →
        (remove_bookmark fs file n).1 = file) := by
  obtain ⟨sf, tf, wf⟩ := fs
  simp only at hw
  subst hw
  constructor
  · intro e he
    cases sf <;> cases tf
    · simp [add_bookmark] at he
    · rfl
    · rfl
    · rfl
  · intro e he
    cases file with
    | absent => rfl
    | raw s => rfl
    | records l =>
      cases hidx : l.findIdx? (fun x => x.name == n) with
      | none => simp [remove_bookmark, hidx] at he
      | some i =>
        cases sf <;> cases tf
        · simp [remove_bookmark, hidx] at he
        · simp [remove_bookmark, hidx]
        · simp [remove_bookmark, hidx]
        · simp [remove_bookmark, hidx]

/-- C4 witness: a failing seek during `add` and during `remove` leaves
the concrete file untouched. -/
theorem prewrite_errors_leave_file_unchanged_witness :
    (add_bookmark { seekFail := true, truncFail := false, writeFail := false }
        (FileContents.records [⟨"a", F64.fin 1⟩]) "b" (F64.fin 2)).1
      = openedAdd (FileContents.records [⟨"a", F64.fin 1⟩]) ∧
    (remove_bookmark { seekFail := true, truncFail := false, writeFail := false }
        (FileContents.records [⟨"a", F64.fin 1⟩]) "a").1
      = FileContents.records [⟨"a", F64.fin 1⟩] := by
  refine ⟨?_, ?_⟩
  · exact (prewrite_errors_leave_file_unchanged
      { seekFail := true, truncFail := false, writeFail := false }
      (FileContents.records [⟨"a", F64.fin 1⟩]) "b" (F64.fin 2) rfl).1 StoreError.ioError rfl
  · exact (prewrite_errors_leave_file_unchanged
      { seekFail := true, truncFail := false, writeFail := false }
      (FileContents.records [⟨"a", F64.fin 1⟩]) "a" (F64.fin 2) rfl).2 StoreError.ioError rfl

/-! ### Claim C5 -/

/-- C5: removing from a store whose collection contains exactly one
record named `n` (split as `l₁ ++ b :: l₂` with no match elsewhere)
returns that record and rewrites the file with it deleted. -/
theorem remove_unique_named_record (l₁ l₂ : List Bookmark) (b : Bookmark) (n : String)
    (hb : b.name = n) (h₁ : ∀ a ∈ l₁, a.name ≠ n) (h₂ : ∀ a ∈ l₂, a.name ≠ n) :
    remove_bookmark noFaults (FileContents.records (l₁ ++ b :: l₂)) n
      = (FileContents.records (l₁ ++ l₂), Except.ok (some b)) :=
  remove_bookmark_split l₁ l₂ b n h₁ hb

/-- C5 witness: removing the only record leaves zero records and
returns it. -/
theorem remove_unique_named_record_witness :
    remove_bookmark noFaults (FileContents.records [⟨"a", F64.fin 1⟩]) "a"
      = (FileContents.records [], Except.ok (some ⟨"a", F64.fin 1⟩)) := by
  have h := remove_unique_named_record [] [] ⟨"a", F64.fin 1⟩ "a" rfl
    (by intro a ha; cases ha) (by intro a ha; cases ha)
  simpa using h

/-! ### Claim C6 -/

/-- C6: removing a name no record carries succeeds with "no record" and
leaves the file contents untouched — under every fault oracle, since no
write is ever attempted. -/
theorem remove_missing_name_leaves_file_unchanged (fs : Faults) (l : List Bookmark)
    (n : String) (h : ∀ a ∈ l, a.name ≠ n) :
    remove_bookmark fs (FileContents.records l) n
      = (FileContents.records l, Except.ok none) := by
  simp [remove_bookmark, findIdx?_none l n h]

/-- C6 witness: a concrete miss, even with every I/O step poised to
fail. -/
theorem remove_missing_name_leaves_file_unchanged_witness :
    remove_bookmark { seekFail := true, truncFail := true, writeFail := true }
        (FileContents.records [⟨"a", F64.fin 1⟩]) "x"
      = (FileContents.records [⟨"a", F64.fin 1⟩], Except.ok none) :=
  remove_missing_name_leaves_file_unchanged
    { seekFail := true, truncFail := true, writeFail := true }
    [⟨"a", F64.fin 1⟩] "x" (by decide)

/-! ### Claim C7 -/

/-- C7: `query` never changes the backing file, for every contents and
name. -/
theorem query_never_mutates_file (file : FileContents) (n : String) :
    (query_bookmark file n).1 = file := by
  cases file <;> rfl

/-! ### Claim C8 -/

/-- C8 counterexample: on the (corrupted) store `[a@1, a@3]`, adding
`("a", 5)` twice yields query result `a@5`, adding it once yields
`a@3` — the first add updates `a@1` to `a@5`, the sort moves it after
`a@3`, and the dedup then drops it. -/
theorem add_twice_changes_query :
    (query_bookmark (add_bookmark noFaults (add_bookmark noFaults
          (FileContents.records [⟨"a", F64.fin 1⟩, ⟨"a", F64.fin 3⟩]) "a" (F64.fin 5)).1
        "a" (F64.fin 5)).1 "a").2
      ≠
    (query_bookmark (add_bookmark noFaults
        (FileContents.records [⟨"a", F64.fin 1⟩, ⟨"a", F64.fin 3⟩]) "a" (F64.fin 5)).1
      "a").2 ∧
    (query_bookmark (add_bookmark noFaults
        (FileContents.records [⟨"a", F64.fin 1⟩, ⟨"a", F64.fin 3⟩]) "a" (F64.fin 5)).1
      "a").2 = Except.ok (some ⟨"a", F64.fin 3⟩) :=
  ⟨by decide, rfl⟩

/-- C8 (amended): when the loaded collection has pairwise-distinct
names, adding the same `(name, offset)` twice yields the same written
file — and hence the same `query(name)` result — as adding it once. -/
theorem add_idempotent_on_unique_names (file : FileContents) (n : String) (o : F64)
    (h : ((loadedAdd file).map Bookmark.name).Nodup) :
    (add_bookmark noFaults (add_bookmark noFaults file n o).1 n o).1
        = (add_bookmark noFaults file n o).1 ∧
    (query_bookmark (add_bookmark noFaults (add_bookmark noFaults file n o).1 n o).1 n).2
        = (query_bookmark (add_bookmark noFaults file n o).1 n).2 := by
  have hfile1 : (add_bookmark noFaults file n o).1
      = FileContents.records (addCore (loadedAdd file) n o) := rfl
  have hiuNodup := insertOrUpdate_names_nodup (loadedAdd file) n o h
  have hsortPerm := sortByCmp_perm offsetCmp (insertOrUpdate (loadedAdd file) n o)
  have hsortNodup : ((sortByCmp offsetCmp (insertOrUpdate (loadedAdd file) n o)).map
      Bookmark.name).Nodup :=
    ((hsortPerm.map Bookmark.name).nodup_iff).mpr hiuNodup
  have hdedup : addCore (loadedAdd file) n o
      = sortByCmp offsetCmp (insertOrUpdate (loadedAdd file) n o) := by
    unfold addCore
    exact dedupBy_of_nodup_names _ hsortNodup
  have hL1nodup : ((addCore (loadedAdd file) n o).map Bookmark.name).Nodup := by
    rw [hdedup]; exact hsortNodup
  have hL1chain : List.Chain' (fun a b => offsetCmp a b ≠ Ordering.gt)
      (addCore (loadedAdd file) n o) := by
    rw [hdedup]; exact sortByCmp_chain' offsetCmp offsetCmp_symm _
  have hmem : ({ name := n, offset := o } : Bookmark) ∈ addCore (loadedAdd file) n o := by
    rw [hdedup]
    exact hsortPerm.mem_iff.mpr (insertOrUpdate_mem (loadedAdd file) n o)
  have hnamed : ∀ b ∈ addCore (loadedAdd file) n o,
      b.name = n → b = { name := n, offset := o } := by
    intro b hb
    rw [hdedup] at hb
    exact insertOrUpdate_named (loadedAdd file) n o h b (hsortPerm.mem_iff.mp hb)
  have hfind : ((addCore (loadedAdd file) n o).find? (fun x => x.name == n)).isNone
      = false := by
    rcases hfv : (addCore (loadedAdd file) n o).find? (fun x => x.name == n) with _ | b
    · exact absurd (List.find?_eq_none.mp hfv _ hmem) (by simp)
    · rw [hfv]; rfl
  have hiou2 : insertOrUpdate (addCore (loadedAdd file) n o) n o
      = addCore (loadedAdd file) n o := by
    unfold insertOrUpdate
    rw [hfind]
    simp only [Bool.false_eq_true, if_false]
    exact updateFirst_eq_self _ n o (fun b hb hbn => by rw [hnamed b hb hbn])
  have hsort2 : sortByCmp offsetCmp (addCore (loadedAdd file) n o)
      = addCore (loadedAdd file) n o :=
    sortByCmp_of_chain' offsetCmp offsetCmp_symm _ hL1chain
  have hded2 : dedupBy sameName (addCore (loadedAdd file) n o)
      = addCore (loadedAdd file) n o :=
    dedupBy_of_nodup_names _ hL1nodup
  have haddCore2 : addCore (addCore (loadedAdd file) n o) n o
      = addCore (loadedAdd file) n o := by
    calc addCore (addCore (loadedAdd file) n o) n o
        = dedupBy sameName (sortByCmp offsetCmp
            (insertOrUpdate (addCore (loadedAdd file) n o) n o)) := rfl
      _ = dedupBy sameName (sortByCmp offsetCmp (addCore (loadedAdd file) n o)) := by
            rw [hiou2]
      _ = dedupBy sameName (addCore (loadedAdd file) n o) := by rw [hsort2]
      _ = addCore (loadedAdd file) n o := hded2
  have hsecond : (add_bookmark noFaults
      (FileContents.records (addCore (loadedAdd file) n o)) n o).1
      = FileContents.records (addCore (loadedAdd file) n o) := by
    show FileContents.records
        (addCore (loadedAdd (FileContents.records (addCore (loadedAdd file) n o))) n o)
      = FileContents.records (addCore (loadedAdd file) n o)
    rw [show loadedAdd (FileContents.records (addCore (loadedAdd file) n o))
        = addCore (loadedAdd file) n o from rfl]
    rw [haddCore2]
  constructor
  · rw [hfile1]; exact hsecond
  · rw [hfile1, hsecond]

/-- C8 witness: the amended claim at a concrete well-formed store. -/
theorem add_idempotent_on_unique_names_witness :
    (add_bookmark noFaults (add_bookmark noFaults
        (FileContents.records [⟨"a", F64.fin 1⟩]) "a" (F64.fin 2)).1 "a" (F64.fin 2)).1
      = (add_bookmark noFaults (FileContents.records [⟨"a", F64.fin 1⟩]) "a" (F64.fin 2)).1 ∧
    (query_bookmark (add_bookmark noFaults (add_bookmark noFaults
        (FileContents.records [⟨"a", F64.fin 1⟩]) "a" (F64.fin 2)).1 "a" (F64.fin 2)).1 "a").2
      = (query_bookmark (add_bookmark noFaults
          (FileContents.records [⟨"a", F64.fin 1⟩]) "a" (F64.fin 2)).1 "a").2 :=
  add_idempotent_on_unique_names (FileContents.records [⟨"a", F64.fin 1⟩]) "a" (F64.fin 2)
    (by decide)

/-! ### Claim C9 -/

/-- C9 counterexample: starting from the (corrupted, but parseable)
store `[a@2, a@NaN, b@1]`, a successful `add("c", 10)` writes
`[a@2, b@1, c@10]`: the sort leaves the NaN-tied order alone, the dedup
removes the middle record, and the written collection has offset 2
immediately before offset 1 — not ascending. -/
theorem add_written_collection_unsorted :
    (add_bookmark noFaults
        (FileContents.records [⟨"a", F64.fin 2⟩, ⟨"a", F64.nan⟩, ⟨"b", F64.fin 1⟩])
        "c" (F64.fin 10)).1
      = FileContents.records [⟨"a", F64.fin 2⟩, ⟨"b", F64.fin 1⟩, ⟨"c", F64.fin 10⟩] ∧
    offsetCmp ⟨"a", F64.fin 2⟩ ⟨"b", F64.fin 1⟩ = Ordering.gt ∧
    ¬ List.Chain' (fun a b => offsetCmp a b ≠ Ordering.gt)
        [(⟨"a", F64.fin 2⟩ : Bookmark), ⟨"b", F64.fin 1⟩, ⟨"c", F64.fin 10⟩] := by
  refine ⟨rfl, by decide, ?_⟩
  intro hch
  rw [List.chain'_cons] at hch
  exact hch.1 (by decide)

/-- C9 (amended): after any successful `add` in which neither the
loaded offsets nor the new offset is NaN, the written collection is
sorted ascending by offset (globally pairwise, not merely adjacent). -/
theorem add_sorted_without_nan (file : FileContents) (n : String) (o : F64)
    (hl : ∀ b ∈ loadedAdd file, b.offset ≠ F64.nan) (ho : o ≠ F64.nan) :
    (add_bookmark noFaults file n o).1 = FileContents.records (addCore (loadedAdd file) n o) ∧
    List.Pairwise (fun a b => offsetCmp a b ≠ Ordering.gt) (addCore (loadedAdd file) n o) := by
  refine ⟨rfl, ?_⟩
  have hiu := insertOrUpdate_offsets (loadedAdd file) n o hl ho
  have hs := sortByCmp_pairwise (insertOrUpdate (loadedAdd file) n o) hiu
  exact List.Pairwise.sublist (dedupBy_sublist sameName _) hs

/-- C9 witness: the amended claim at a concrete NaN-free store. -/
theorem add_sorted_without_nan_witness :
    (add_bookmark noFaults (FileContents.records [⟨"a", F64.fin 3⟩]) "b" (F64.fin 1)).1
        = FileContents.records (addCore [⟨"a", F64.fin 3⟩] "b" (F64.fin 1)) ∧
    List.Pairwise (fun a b => offsetCmp a b ≠ Ordering.gt)
        (addCore [⟨"a", F64.fin 3⟩] "b" (F64.fin 1)) :=
  add_sorted_without_nan (FileContents.records [⟨"a", F64.fin 3⟩]) "b" (F64.fin 1)
    (by decide) (by decide)

/-! ### Claim C10 -/

/-- C10: `remove` neither re-sorts nor dedups: on a collection split
around the *first* record named `n`, exactly that record is deleted and
everything after it — later same-named records included — is kept in
its original relative order. -/
theorem remove_first_match_only (l₁ l₂ : List Bookmark) (b : Bookmark) (n : String)
    (hb : b.name = n) (h₁ : ∀ a ∈ l₁, a.name ≠ n) :
    remove_bookmark noFaults (FileContents.records (l₁ ++ b :: l₂)) n
      = (FileContents.records (l₁ ++ l₂), Except.ok (some b)) :=
  remove_bookmark_split l₁ l₂ b n h₁ hb

/-- C10 witness: on the corrupted store `[b@5, a@1, a@3]`, removing
"a" deletes only `a@1` and keeps `a@3` in place. -/
theorem remove_first_match_only_witness :
    remove_bookmark noFaults
        (FileContents.records [⟨"b", F64.fin 5⟩, ⟨"a", F64.fin 1⟩, ⟨"a", F64.fin 3⟩]) "a"
      = (FileContents.records [⟨"b", F64.fin 5⟩, ⟨"a", F64.fin 3⟩],
          Except.ok (some ⟨"a", F64.fin 1⟩)) := by
  have h := remove_first_match_only [⟨"b", F64.fin 5⟩] [⟨"a", F64.fin 3⟩]
    ⟨"a", F64.fin 1⟩ "a" rfl (by decide)
  simpa using h

end BookmarkStore
